import Mathlib

/-!
Verification of the core of the `apim-policy-update` action:
path grammar resolver and content validator (`src/utils.ts`),
discovery and aggregate validation (`src/policy-discovery.ts`),
the remote accessor wrapper (`src/azure-client.ts`), and the
reconciliation orchestrator (`src/main.ts`).

Strings are modelled through their character lists; JavaScript regular
expressions are modelled by explicit scanning functions with the same
leftmost-match semantics; effectful code is modelled by explicit
environments and traces.
-/

namespace Apim

/-- Path separator characters recognised by the path grammar
(the regexes use the character class of forward and back slash). -/
def sepChar (c : Char) : Bool :=
  c == '/' || c == '\\'

/-- Whitespace removed by JavaScript `String.prototype.trim`
(the characters relevant to this code base). -/
def wsChar (c : Char) : Bool :=
  c == ' ' || c == '\t' || c == '\n' || c == '\r'

/-- Both-ends trim, modelling `content.trim()`. -/
def trimChars (l : List Char) : List Char :=
  ((l.dropWhile wsChar).reverse.dropWhile wsChar).reverse

/-- Substring test, modelling `String.prototype.includes`. -/
def containsSub (pat : List Char) : List Char → Bool
  | [] => pat.isEmpty
  | c :: t => pat.isPrefixOf (c :: t) || containsSub pat t

/--
`validateXmlContent` from `src/utils.ts`: non-empty after trim, trimmed
content starts with `<` and ends with `>`, and contains the literal
substrings `<policies>` and `</policies>`.
-/
def validateXmlContent (content : String) : Bool :=
  if content.data.isEmpty || (trimChars content.data).isEmpty then
    false
  else
    let trimmed := trimChars content.data
    if !(['<'].isPrefixOf trimmed) || !(['>'].isSuffixOf trimmed) then
      false
    else if !(containsSub "<policies>".data trimmed)
        || !(containsSub "</policies>".data trimmed) then
      false
    else
      true

/--
Match attempt at one start position for the pattern of
`extractApiIdFromPath` (`policies[/\]([^/\]+)[/\]`): the literal
`policies`, a separator, a captured non-empty separator-free run,
a separator.  Returns the captured run.
-/
def captureApiAt (l : List Char) : Option (List Char) :=
  if "policies".data.isPrefixOf l then
    match l.drop 8 with
    | [] => none
    | c :: rest =>
      if sepChar c then
        let w := rest.takeWhile (fun ch => !sepChar ch)
        let r := rest.dropWhile (fun ch => !sepChar ch)
        if w.isEmpty then none
        else
          match r with
          | [] => none
          | _ :: _ => some w
      else none
  else none

/-- Leftmost-match scan for `captureApiAt`, as the regex engine does. -/
def scanCaptureApi : List Char → Option (List Char)
  | [] => captureApiAt []
  | c :: t =>
    match captureApiAt (c :: t) with
    | some w => some w
    | none => scanCaptureApi t

/-- `extractApiIdFromPath` from `src/utils.ts`. -/
def extractApiIdFromPath (filePath : String) : Option String :=
  (scanCaptureApi filePath.data).map (fun w => String.mk w)

/--
Match attempt at one start position for the end-anchored pattern of
`isApiLevelPolicy` (`policies[/\][^/\]+[/\]api\.xml$`).
-/
def apiLevelAt (l : List Char) : Bool :=
  "policies".data.isPrefixOf l &&
    (match l.drop 8 with
     | [] => false
     | c :: rest =>
       sepChar c &&
         (let w := rest.takeWhile (fun ch => !sepChar ch)
          let r := rest.dropWhile (fun ch => !sepChar ch)
          !w.isEmpty &&
            (match r with
             | [] => false
             | _ :: tail => tail == "api.xml".data)))

/-- Leftmost-match scan for `apiLevelAt`. -/
def scanApiLevel : List Char → Bool
  | [] => apiLevelAt []
  | c :: t => apiLevelAt (c :: t) || scanApiLevel t

/-- `isApiLevelPolicy` from `src/utils.ts`. -/
def isApiLevelPolicy (filePath : String) : Bool :=
  scanApiLevel filePath.data

/--
Match attempt at one start position for the end-anchored pattern of
`isOperationLevelPolicy`
(`policies[/\][^/\]+[/\]operations[/\][^/\]+\.xml$`).
After `operations` and a separator the remainder must be a separator-free
run ending in `.xml` with a non-empty stem.
-/
def opLevelAt (l : List Char) : Bool :=
  "policies".data.isPrefixOf l &&
    (match l.drop 8 with
     | [] => false
     | c :: rest =>
       sepChar c &&
         (let w := rest.takeWhile (fun ch => !sepChar ch)
          let r := rest.dropWhile (fun ch => !sepChar ch)
          !w.isEmpty &&
            (match r with
             | [] => false
             | _ :: tail =>
               "operations".data.isPrefixOf tail &&
                 (match tail.drop 10 with
                  | [] => false
                  | c2 :: rest2 =>
                    sepChar c2 &&
                      rest2.all (fun ch => !sepChar ch) &&
                      ".xml".data.isSuffixOf rest2 &&
                      decide (5 ≤ rest2.length)))))

/-- Leftmost-match scan for `opLevelAt`. -/
def scanOpLevel : List Char → Bool
  | [] => opLevelAt []
  | c :: t => opLevelAt (c :: t) || scanOpLevel t

/-- `isOperationLevelPolicy` from `src/utils.ts`. -/
def isOperationLevelPolicy (filePath : String) : Bool :=
  scanOpLevel filePath.data

/--
Match attempt at one start position for the end-anchored pattern of
`extractOperationIdFromPath`
(`policies[/\][^/\]+[/\]operations[/\]([^/\]+)\.xml$`), returning the
captured operation id (the run with its `.xml` tail removed).
-/
def captureOpAt (l : List Char) : Option (List Char) :=
  if "policies".data.isPrefixOf l then
    match l.drop 8 with
    | [] => none
    | c :: rest =>
      if sepChar c then
        let r := rest.dropWhile (fun ch => !sepChar ch)
        if (rest.takeWhile (fun ch => !sepChar ch)).isEmpty then none
        else
          match r with
          | [] => none
          | _ :: tail =>
            if "operations".data.isPrefixOf tail then
              match tail.drop 10 with
              | [] => none
              | c2 :: rest2 =>
                if sepChar c2 && rest2.all (fun ch => !sepChar ch)
                    && ".xml".data.isSuffixOf rest2
                    && decide (5 ≤ rest2.length) then
                  some (rest2.take (rest2.length - 4))
                else none
            else none
      else none
  else none

/-- Leftmost-match scan for `captureOpAt`. -/
def scanCaptureOp : List Char → Option (List Char)
  | [] => captureOpAt []
  | c :: t =>
    match captureOpAt (c :: t) with
    | some w => some w
    | none => scanCaptureOp t

/-- `extractOperationIdFromPath` from `src/utils.ts`. -/
def extractOperationIdFromPath (filePath : String) : Option String :=
  (scanCaptureOp filePath.data).map (fun w => String.mk w)

/-- The path segments of a path: the runs between separators. -/
def splitSegs : List Char → List (List Char)
  | [] => [[]]
  | c :: t =>
    if sepChar c then [] :: splitSegs t
    else
      match splitSegs t with
      | [] => [[c]]
      | s :: rest => (c :: s) :: rest

/-- Policy scope, the `scope: 'api' | 'operation'` field of `PolicyFile`. -/
inductive PolicyScope where
  | api
  | operation
deriving DecidableEq, Repr

/-- `PolicyFile` from `src/types.ts`. -/
structure PolicyFile where
  filePath : String
  apiId : String
  operationId : Option String := none
  scope : PolicyScope
  content : String
deriving DecidableEq, Repr

/-- `PolicyUpdateResult` from `src/types.ts`. -/
structure PolicyUpdateResult where
  apiId : String
  operationId : Option String := none
  updated : Bool
  etag : Option String := none
  error : Option String := none
deriving DecidableEq, Repr

/--
One in-place update of the `apiCounts` map of `validatePolicies`
(`counts = map.get(apiId) or default; counts.api++ / counts.operations++;
map.set`).  The JavaScript `Map` keeps insertion order and unique keys,
modelled as an association list updated at the first matching key and
extended at the end for a new key.  The pair holds
(api count, operations count).
-/
def updateCounts (m : List (String × Nat × Nat)) (k : String) (isApi : Bool) :
    List (String × Nat × Nat) :=
  match m with
  | [] => [(k, if isApi then (1, 0) else (0, 1))]
  | (k1, a, o) :: t =>
    if k1 == k then
      (k1, if isApi then (a + 1, o) else (a, o + 1)) :: t
    else
      (k1, a, o) :: updateCounts t k isApi

/-- The `apiCounts` map after the counting loop of `validatePolicies`. -/
def buildCounts (policies : List PolicyFile) : List (String × Nat × Nat) :=
  policies.foldl (fun m p => updateCounts m p.apiId (p.scope == .api)) []

/--
`validatePolicies` from `src/policy-discovery.ts`: empty list is invalid;
the loop re-checks every content with `validateXmlContent`; the summary
loop marks any apiId whose api-level count exceeds one as invalid.
-/
def validatePolicies (policies : List PolicyFile) : Bool :=
  if policies.isEmpty then
    false
  else
    let afterContent :=
      policies.foldl
        (fun v p => if validateXmlContent p.content then v else false) true
    (buildCounts policies).foldl
      (fun v e => if 1 < e.2.1 then false else v) afterContent

/--
A JavaScript thrown value, as the `catch` blocks of this code base
distinguish them: either not an `Error` instance, or an `Error` with a
`message` and possibly a transport `response` whose `data` object may
carry `error.message` and `message` fields (absent or falsy-empty
fields are modelled by `none` and `some ""`).
-/
inductive JsError where
  | nonError
  | jsError (message : String) (response : Option (Option String × Option String))
deriving DecidableEq, Repr

/-- A possibly absent and possibly empty string field is truthy only when
present and non-empty (JavaScript truthiness used by the `if` chain). -/
def truthyField (o : Option String) : Option String :=
  o.bind (fun s => if s == "" then none else some s)

/--
The message chosen by the `catch` blocks of `updateApiPolicyDirect` and
`updateOperationPolicyDirect` in `src/azure-client.ts`: start from the
constant, use `error.message` for an `Error` instance, then prefer
`response.data.error.message`, else `response.data.message`, when the
error carries a response body with a truthy such field.
-/
def extractAzureErrorMessage (e : JsError) : String :=
  match e with
  | .nonError => "Unknown error"
  | .jsError message response =>
    match response with
    | none => message
    | some (errMsg, topMsg) =>
      match truthyField errMsg with
      | some m => m
      | none =>
        match truthyField topMsg with
        | some m => m
        | none => message

/-- The apostrophe character used inside the diagnostic messages. -/
def squote : String :=
  String.singleton (Char.ofNat 39)

/-- `apis.join(", ")`, the enumeration of available identifiers. -/
def joinComma (l : List String) : String :=
  String.intercalate ", " l

/--
The remote service as the accessor observes it in one run: the api
identifiers returned by `listApis`, the operation identifiers returned
by `listOperations`, and the outcome of each `createOrUpdate` write
(`ok` carries the `eTag` field of the response, possibly absent).
-/
structure RemoteEnv where
  apis : List String
  operations : String → List String
  apiWrite : String → String → Except JsError (Option String)
  opWrite : String → String → String → Except JsError (Option String)

/-- `updateApiPolicyDirect` from `src/azure-client.ts`. -/
def updateApiPolicyDirect (env : RemoteEnv) (apiId content : String) :
    PolicyUpdateResult :=
  match env.apiWrite apiId content with
  | .ok etagField =>
    { apiId := apiId, updated := true, etag := some (etagField.getD "") }
  | .error e =>
    { apiId := apiId, updated := false,
      error := some (extractAzureErrorMessage e) }

/-- `updateOperationPolicyDirect` from `src/azure-client.ts`. -/
def updateOperationPolicyDirect (env : RemoteEnv)
    (apiId operationId content : String) : PolicyUpdateResult :=
  match env.opWrite apiId operationId content with
  | .ok etagField =>
    { apiId := apiId, operationId := some operationId, updated := true,
      etag := some (etagField.getD "") }
  | .error e =>
    { apiId := apiId, operationId := some operationId, updated := false,
      error := some (extractAzureErrorMessage e) }

/--
`updateApiPolicy` from `src/azure-client.ts`.  The second component
records whether the underlying write (`apiPolicy.createOrUpdate`,
reached through `updateApiPolicyDirect`) was invoked.
-/
def updateApiPolicy (env : RemoteEnv) (apiId content : String) :
    PolicyUpdateResult × Bool :=
  if env.apis.contains apiId then
    (updateApiPolicyDirect env apiId content, true)
  else
    ({ apiId := apiId, updated := false,
       error := some ("API " ++ squote ++ apiId ++ squote
         ++ " not found. Available APIs: " ++ joinComma env.apis) },
     false)

/--
`updateOperationPolicy` from `src/azure-client.ts`.  The second
component records whether the underlying write was invoked.
-/
def updateOperationPolicy (env : RemoteEnv)
    (apiId operationId content : String) : PolicyUpdateResult × Bool :=
  if env.apis.contains apiId then
    if (env.operations apiId).contains operationId then
      (updateOperationPolicyDirect env apiId operationId content, true)
    else
      ({ apiId := apiId, operationId := some operationId, updated := false,
         error := some ("Operation " ++ squote ++ operationId ++ squote
           ++ " not found in API " ++ squote ++ apiId ++ squote
           ++ ". Available operations: "
           ++ joinComma (env.operations apiId)) },
       false)
  else
    ({ apiId := apiId, operationId := some operationId, updated := false,
       error := some ("API " ++ squote ++ apiId ++ squote
         ++ " not found. Available APIs: " ++ joinComma env.apis) },
     false)

/-- `PolicyManifestEntry` from `src/types.ts` as the manifest loader uses
it: an optional api-level path and an optional operation map, the latter
as its `Object.entries` list of (operationId, path) pairs. -/
structure PolicyManifestEntry where
  apiPolicyPath : Option String := none
  operations : Option (List (String × String)) := none

/-- `PolicyManifest` from `src/types.ts`: the `Object.entries` list of
the `policies` record, in key order. -/
structure PolicyManifest where
  policies : List (String × PolicyManifestEntry)

/--
The file system and path resolution as one discovery run observes them:
the listing produced by `glob` (or the failure that aborts the scan),
the outcome of each `fs.readFile`, `path.resolve(baseDir, p)` applied to
a path, and the result of reading plus YAML-parsing the manifest
(`none` for a read failure, an unparsable document, or a document
without a `policies` section).
-/
structure FsEnv where
  globResult : Except JsError (List String)
  readFile : String → Except JsError String
  resolve : String → String
  parseManifest : String → Option PolicyManifest

/--
The body of the candidate loop of `discoverPoliciesFromDefaultStructure`
in `src/policy-discovery.ts`: read, validate, extract the api id,
classify the scope, extract the operation id for operation scope; any
failing step skips the candidate.
-/
def discoverDefaultStep (env : FsEnv) (acc : List PolicyFile)
    (filePath : String) : List PolicyFile :=
  match env.readFile (env.resolve filePath) with
  | .error _ => acc
  | .ok content =>
    if !validateXmlContent content then acc
    else
      match extractApiIdFromPath filePath with
      | none => acc
      | some apiId =>
        if isApiLevelPolicy filePath then
          acc ++ [{ filePath := env.resolve filePath, apiId := apiId,
                    operationId := none, scope := .api, content := content }]
        else if isOperationLevelPolicy filePath then
          match extractOperationIdFromPath filePath with
          | none => acc
          | some operationId =>
            acc ++ [{ filePath := env.resolve filePath, apiId := apiId,
                      operationId := some operationId, scope := .operation,
                      content := content }]
        else acc

/-- `discoverPoliciesFromDefaultStructure` from `src/policy-discovery.ts`:
a failed enumeration yields the empty result; otherwise each candidate
is processed in listing order with per-candidate failure isolation. -/
def discoverPoliciesFromDefaultStructure (env : FsEnv) : List PolicyFile :=
  match env.globResult with
  | .error _ => []
  | .ok policyFiles => policyFiles.foldl (discoverDefaultStep env) []

/-- `loadPolicyManifest` from `src/policy-discovery.ts`. -/
def loadPolicyManifest (env : FsEnv) (manifestPath : String) :
    Option PolicyManifest :=
  match env.readFile manifestPath with
  | .error _ => none
  | .ok manifestContent => env.parseManifest manifestContent

/--
The api-level part of one manifest entry in `discoverPoliciesFromManifest`:
the optional `apiPolicyPath` is resolved, read and validated, emitting an
api-scope document on success and skipping only this sub-item otherwise.
-/
def manifestApiPart (env : FsEnv) (acc : List PolicyFile) (apiId : String)
    (apiConfig : PolicyManifestEntry) : List PolicyFile :=
  match apiConfig.apiPolicyPath with
  | none => acc
  | some apiPolicyPath =>
    match env.readFile (env.resolve apiPolicyPath) with
    | .error _ => acc
    | .ok content =>
      if validateXmlContent content then
        acc ++ [{ filePath := env.resolve apiPolicyPath, apiId := apiId,
                  operationId := none, scope := .api, content := content }]
      else acc

/--
Processing of one `(operationId, path)` pair of a manifest entry in
`discoverPoliciesFromManifest`, with the same per-item isolation.
-/
def manifestOpStep (env : FsEnv) (apiId : String) (acc : List PolicyFile)
    (op : String × String) : List PolicyFile :=
  match env.readFile (env.resolve op.2) with
  | .error _ => acc
  | .ok content =>
    if validateXmlContent content then
      acc ++ [{ filePath := env.resolve op.2, apiId := apiId,
                operationId := some op.1, scope := .operation,
                content := content }]
    else acc

/--
Processing of one manifest entry by `discoverPoliciesFromManifest`:
the optional api-level policy, then every operation-level policy.
-/
def discoverManifestStep (env : FsEnv) (acc : List PolicyFile)
    (entry : String × PolicyManifestEntry) : List PolicyFile :=
  match entry.2.operations with
  | none => manifestApiPart env acc entry.1 entry.2
  | some operationEntries =>
    operationEntries.foldl (manifestOpStep env entry.1)
      (manifestApiPart env acc entry.1 entry.2)

/-- `discoverPoliciesFromManifest` from `src/policy-discovery.ts`. -/
def discoverPoliciesFromManifest (env : FsEnv) (manifestPath : String) :
    List PolicyFile :=
  match loadPolicyManifest env manifestPath with
  | none => []
  | some manifest => manifest.policies.foldl (discoverManifestStep env) []

/-- `discoverPolicies` from `src/policy-discovery.ts`: manifest path
present selects the manifest strategy, absent the convention scan. -/
def discoverPolicies (env : FsEnv) (manifestPath : Option String) :
    List PolicyFile :=
  match manifestPath with
  | some mp => discoverPoliciesFromManifest env mp
  | none => discoverPoliciesFromDefaultStructure env

/--
The outcome of one iteration of the update loop of `run` in
`src/main.ts` for one policy: the result returned by the client call,
or the exception the `catch` block absorbs.
-/
inductive StepOutcome where
  | ok (r : PolicyUpdateResult)
  | thrown (e : JsError)
deriving DecidableEq, Repr

/-- The `lastETag` update of the loop body: only an `updated` result
with a truthy (present, non-empty) `etag` overwrites the accumulator. -/
def stepEtag (lastETag : String) (oc : StepOutcome) : String :=
  match oc with
  | .ok r =>
    if r.updated then
      match r.etag with
      | some t => if t == "" then lastETag else t
      | none => lastETag
    else lastETag
  | .thrown _ => lastETag

/-- Loop state of `run`: the `lastETag` accumulator plus the per-policy
trace of outcomes, in iteration order. -/
structure LoopState where
  lastETag : String
  processed : List (PolicyFile × StepOutcome)
deriving DecidableEq, Repr

/-- One iteration of the update loop of `run`: the client call outcome
is recorded and the accumulator updated; a thrown error is caught and
leaves the accumulator unchanged, and the loop continues. -/
def stepPolicy (behav : PolicyFile → StepOutcome) (st : LoopState)
    (p : PolicyFile) : LoopState :=
  let oc := behav p
  { lastETag := stepEtag st.lastETag oc,
    processed := st.processed ++ [(p, oc)] }

/-- The update loop of `run` over the validated policy list. -/
def runLoop (behav : PolicyFile → StepOutcome)
    (policies : List PolicyFile) : LoopState :=
  policies.foldl (stepPolicy behav) ⟨"", []⟩

/--
One orchestrator run as `run` in `src/main.ts` observes it: the
connection test result, the list produced by `discoverPolicies`, and
the behaviour of each client update call on a policy (either the result
it returns or the exception it throws; `updateApiPolicy` and
`updateOperationPolicy` as modelled above are the intended
instantiations).
-/
structure RunEnv where
  connectionOk : Bool
  discovered : List PolicyFile
  behav : PolicyFile → StepOutcome

/-- Observable outputs of one `run`: whether `setFailed` was called and
with what, the published `etag` output, and the per-policy trace. -/
structure RunOutput where
  failed : Bool
  failMsg : Option String
  etag : String
  trace : List (PolicyFile × StepOutcome)
deriving Repr

/--
`run` from `src/main.ts`: a failed connection test throws and is caught
fatally; an empty discovery result is a warning with `etag` set to the
empty string and an early successful return; a failed aggregate
validation throws and is caught fatally; otherwise the update loop runs
and `etag` publishes its final accumulator.
-/
def run (env : RunEnv) : RunOutput :=
  if !env.connectionOk then
    { failed := true,
      failMsg := some "Failed to connect to Azure API Management service",
      etag := "", trace := [] }
  else if env.discovered.isEmpty then
    { failed := false, failMsg := none, etag := "", trace := [] }
  else if !validatePolicies env.discovered then
    { failed := true, failMsg := some "Policy validation failed",
      etag := "", trace := [] }
  else
    let st := runLoop env.behav env.discovered
    { failed := false, failMsg := none, etag := st.lastETag,
      trace := st.processed }

/-- The token a loop outcome contributes to the `lastETag` accumulator:
present only for a result with `updated` true and a non-empty `etag`. -/
def successToken (oc : StepOutcome) : Option String :=
  match oc with
  | .ok r =>
    if r.updated then
      match r.etag with
      | some t => if t == "" then none else some t
      | none => none
    else none
  | .thrown _ => none

/-- The output contract of the spec: the token of the last successful
result in iteration order whose token is non-empty, and the empty string
when there is none. -/
def lastSuccessEtag (trace : List (PolicyFile × StepOutcome)) : String :=
  ((trace.filterMap (fun pr => successToken pr.2)).getLast?).getD ""

/-- Lookup in the counts association list (the `Map.get` view). -/
def countsFor (m : List (String × Nat × Nat)) (k : String) : Nat × Nat :=
  match m with
  | [] => (0, 0)
  | e :: t => if e.1 == k then e.2 else countsFor t k

/-- The keys of the counts association list. -/
def keysOf (m : List (String × Nat × Nat)) : List String :=
  m.map Prod.fst

/-- Number of api-scope documents of one apiId group. -/
def apiScopeCount (policies : List PolicyFile) (k : String) : Nat :=
  (policies.filter
    (fun p => p.apiId == k && p.scope == PolicyScope.api)).length

/-- Number of operation-scope documents of one apiId group. -/
def opScopeCount (policies : List PolicyFile) (k : String) : Nat :=
  (policies.filter
    (fun p => p.apiId == k && p.scope == PolicyScope.operation)).length

/-- The predicate a separator-free character satisfies. -/
def nonSep (c : Char) : Bool :=
  !sepChar c

/-- Declarative reading of a successful `apiLevelAt` match: the whole
list is the literal `policies`, a separator, a non-empty separator-free
run, a separator, and the literal `api.xml`. -/
def AtApiShape (l : List Char) : Prop :=
  ∃ (s1 s2 : Char) (w : List Char),
    l = "policies".data ++ s1 :: (w ++ s2 :: "api.xml".data) ∧
    sepChar s1 = true ∧ sepChar s2 = true ∧ w ≠ [] ∧ w.all nonSep = true

/-- Declarative reading of `isApiLevelPolicy` returning true: some
suffix of the path matches the end-anchored api-level pattern. -/
def ApiShape (l : List Char) : Prop :=
  ∃ u t, l = u ++ t ∧ AtApiShape t

/-- Declarative reading of a successful `opLevelAt` match. -/
def AtOpShape (l : List Char) : Prop :=
  ∃ (s1 s2 s3 : Char) (w1 w2 : List Char),
    l = "policies".data ++
      s1 :: (w1 ++ s2 :: ("operations".data ++ s3 :: (w2 ++ ".xml".data))) ∧
    sepChar s1 = true ∧ sepChar s2 = true ∧ sepChar s3 = true ∧
    w1 ≠ [] ∧ w1.all nonSep = true ∧ w2 ≠ [] ∧ w2.all nonSep = true

/-- Declarative reading of `isOperationLevelPolicy` returning true. -/
def OpShape (l : List Char) : Prop :=
  ∃ u t, l = u ++ t ∧ AtOpShape t

/-- Declarative reading of a successful `captureApiAt` match with
captured run `a` (the pattern of `extractApiIdFromPath` is not
end-anchored, so an arbitrary remainder follows). -/
def AtCaptureShape (l : List Char) (a : List Char) : Prop :=
  ∃ (s1 s2 : Char) (v : List Char),
    l = "policies".data ++ s1 :: (a ++ s2 :: v) ∧
    sepChar s1 = true ∧ sepChar s2 = true ∧ a ≠ [] ∧ a.all nonSep = true

/-- Declarative reading of `extractApiIdFromPath` succeeding with `a`:
some occurrence of `policies`, a separator, the run `a`, a separator. -/
def CaptureShape (l : List Char) (a : List Char) : Prop :=
  ∃ u t, l = u ++ t ∧ AtCaptureShape t a

/-- Declarative leftmost-match semantics of `extractApiIdFromPath`:
the capture `a` is taken at a matching occurrence before which no
earlier start position matches (the JavaScript regex engine's leftmost
match). -/
def LeftmostCaptureShape (l : List Char) (a : List Char) : Prop :=
  ∃ u t, l = u ++ t ∧ AtCaptureShape t a ∧
    ∀ (u2 t2 b : List Char), l = u2 ++ t2 → u2.length < u.length →
      ¬ AtCaptureShape t2 b

/-- Remote environment without the target api, for the C3 witness. -/
def c3Env : RemoteEnv :=
  { apis := ["api2", "api3"], operations := fun _ => [],
    apiWrite := fun _ _ => .ok none, opWrite := fun _ _ _ => .ok none }

/-- Remote environment whose write fails with a nested transport
payload, for the C9 witness. -/
def c9Env : RemoteEnv :=
  { apis := ["api1"], operations := fun _ => [],
    apiWrite := fun _ _ =>
      .error (.jsError "socket closed" (some (some "Azure says no", none))),
    opWrite := fun _ _ _ => .ok none }

/-- The two concrete documents of the C1 witness run. -/
def c1P1 : PolicyFile :=
  { filePath := "policies/a1/api.xml", apiId := "a1",
    scope := .api, content := "<policies></policies>" }

def c1P2 : PolicyFile :=
  { filePath := "policies/a2/api.xml", apiId := "a2",
    scope := .api, content := "<policies></policies>" }

def c1R1 : PolicyUpdateResult :=
  { apiId := "a1", updated := false, error := some "write refused" }

def c1R2 : PolicyUpdateResult :=
  { apiId := "a2", updated := true, etag := some "etag-2" }

def c1Env : RunEnv :=
  { connectionOk := true, discovered := [c1P1, c1P2],
    behav := fun p => if p.apiId == "a1" then .ok c1R1 else .ok c1R2 }

/-- Environment of the C2 witness: two successful writes, the first
with token `e1`, the second with an empty token that must not
overwrite `e1`. -/
def c2Env : RunEnv :=
  { connectionOk := true, discovered := [c1P1, c1P2],
    behav := fun p =>
      if p.apiId == "a1" then
        .ok { apiId := "a1", updated := true, etag := some "e1" }
      else
        .ok { apiId := "a2", updated := true, etag := some "" } }

/-- A run whose connection succeeds and whose discovery is empty,
used for C5 and the C2 witness. -/
def c5EnvPre : RunEnv :=
  { connectionOk := true, discovered := [],
    behav := fun _ => .thrown .nonError }

/-- Concrete documents for the C4 duplicate and one-plus-N cases. -/
def c4ApiDoc : PolicyFile :=
  { filePath := "policies/shared/api.xml", apiId := "shared",
    scope := .api, content := "<policies></policies>" }

def c4ApiDoc2 : PolicyFile :=
  { filePath := "other/shared/api.xml", apiId := "shared",
    scope := .api, content := "<policies></policies>" }

def c4OpDoc (n : Nat) : PolicyFile :=
  { filePath := "policies/shared/operations/op.xml", apiId := "shared",
    operationId := some ("op-" ++ toString n), scope := .operation,
    content := "<policies></policies>" }

/-- N distinct operation-scope documents sharing the apiId `shared`. -/
def c4OpDocs : Nat → List PolicyFile
  | 0 => []
  | n + 1 => c4OpDoc (n + 1) :: c4OpDocs n

/-- File system of the C10 witness: a conventional layout with one
api-level and one operation-level policy file. -/
def c10Env : FsEnv :=
  { globResult := .ok ["policies/my-api/api.xml",
      "policies/my-api/operations/get-users.xml"],
    readFile := fun _ => .ok "<policies></policies>",
    resolve := fun p => p,
    parseManifest := fun _ => none }

/-- The api-level document the C10 witness run discovers. -/
def c10Doc : PolicyFile :=
  { filePath := "policies/my-api/api.xml", apiId := "my-api",
    scope := .api, content := "<policies></policies>" }

/-! ### List helper lemmas -/

theorem takeWhile_run {p : Char → Bool} (w : List Char) (s : Char)
    (rest : List Char) (hw : w.all p = true) (hs : p s = false) :
    (w ++ s :: rest).takeWhile p = w ∧
      (w ++ s :: rest).dropWhile p = s :: rest := by
  induction w with
  | nil => simp [List.takeWhile, List.dropWhile, hs]
  | cons a t ih =>
    simp only [List.all_cons, Bool.and_eq_true] at hw
    have := ih hw.2
    simp [List.takeWhile_cons, List.dropWhile_cons, hw.1, this.1, this.2]

theorem dropWhile_head_false {p : Char → Bool} (l : List Char) (a : Char)
    (t : List Char) (h : l.dropWhile p = a :: t) : p a = false := by
  induction l with
  | nil => simp [List.dropWhile] at h
  | cons c r ih =>
    by_cases hc : p c = true
    · exact ih (by simpa [List.dropWhile_cons, hc] using h)
    · have hc' : p c = false := by
        cases hpc : p c
        · rfl
        · exact absurd hpc hc
      rw [List.dropWhile_cons, hc'] at h
      simp at h
      rw [← h.1]
      exact hc'

theorem takeWhile_all {p : Char → Bool} (l : List Char) :
    (l.takeWhile p).all p = true := by
  induction l with
  | nil => simp [List.takeWhile]
  | cons c t ih =>
    cases hc : p c
    · simp [List.takeWhile_cons, hc]
    · simp [List.takeWhile_cons, hc, ih]

theorem containsSub_iff (pat l : List Char) :
    containsSub pat l = true ↔ ∃ u v, l = u ++ pat ++ v := by
  induction l with
  | nil =>
    simp only [containsSub, List.isEmpty_iff]
    constructor
    · intro h
      exact ⟨[], [], by simp [h]⟩
    · rintro ⟨u, v, huv⟩
      have := huv.symm
      rcases List.append_eq_nil.mp (List.append_eq_nil.mp this).1 with ⟨-, h2⟩
      exact h2
  | cons c t ih =>
    simp only [containsSub, Bool.or_eq_true]
    constructor
    · rintro (h | h)
      · rcases List.isPrefixOf_iff_prefix.mp h with ⟨v, hv⟩
        exact ⟨[], v, by simp [hv.symm]⟩
      · rcases ih.mp h with ⟨u, v, huv⟩
        exact ⟨c :: u, v, by simp [huv]⟩
    · rintro ⟨u, v, huv⟩
      cases u with
      | nil =>
        left
        exact List.isPrefixOf_iff_prefix.mpr ⟨v, by simpa using huv.symm⟩
      | cons a u' =>
        right
        refine ih.mpr ⟨u', v, ?_⟩
        simpa using congrArg List.tail huv

theorem singleton_isPrefixOf_iff (x : Char) (l : List Char) :
    [x].isPrefixOf l = true ↔ l.head? = some x := by
  cases l with
  | nil => simp [List.isPrefixOf]
  | cons c t =>
    simp only [List.isPrefixOf, List.head?_cons, Option.some.injEq]
    constructor
    · intro h
      simp only [Bool.and_eq_true, beq_iff_eq] at h
      exact h.1.symm
    · intro h
      simp [h.symm, List.isPrefixOf]

theorem singleton_isSuffixOf_iff (x : Char) (l : List Char) :
    [x].isSuffixOf l = true ↔ l.getLast? = some x := by
  rw [List.isSuffixOf_iff_suffix]
  constructor
  · rintro ⟨t, ht⟩
    rw [← ht]
    exact List.getLast?_concat t
  · intro h
    have hrev : l.reverse.head? = some x := by
      rw [List.head?_reverse, h]
    cases hl : l.reverse with
    | nil => rw [hl] at hrev; simp at hrev
    | cons a r =>
      rw [hl] at hrev
      simp only [List.head?_cons, Option.some.injEq] at hrev
      refine ⟨r.reverse, ?_⟩
      have : l = (a :: r).reverse := by
        rw [← hl, List.reverse_reverse]
      rw [this, List.reverse_cons, hrev]

theorem getLast?_cons_getD {α : Type} (l : List α) (a x : α) :
    ((a :: l).getLast?).getD x = (l.getLast?).getD a := by
  induction l generalizing a x with
  | nil => simp
  | cons b t ih =>
    rw [List.getLast?_cons_cons]
    rw [ih b x, ih b a]

/-! ### Content validator -/

theorem validateXmlContent_eq_checks (c : String) :
    validateXmlContent c =
      (!(trimChars c.data).isEmpty &&
        ['<'].isPrefixOf (trimChars c.data) &&
        ['>'].isSuffixOf (trimChars c.data) &&
        containsSub "<policies>".data (trimChars c.data) &&
        containsSub "</policies>".data (trimChars c.data)) := by
  unfold validateXmlContent
  by_cases h0 : (trimChars c.data).isEmpty = true
  · rw [h0]
    simp
  · have h0' : (trimChars c.data).isEmpty = false :=
      Bool.not_eq_true _ ▸ eq_false_of_ne_true h0
    have hdne : c.data.isEmpty = false := by
      cases hc : c.data with
      | nil => exact absurd (by rw [hc]; rfl) h0
      | cons a t => rfl
    rw [hdne, h0']
    cases hp : ['<'].isPrefixOf (trimChars c.data) <;>
      cases hs : ['>'].isSuffixOf (trimChars c.data) <;>
        cases hc1 : containsSub "<policies>".data (trimChars c.data) <;>
          cases hc2 : containsSub "</policies>".data (trimChars c.data) <;>
            simp [hp, hs, hc1, hc2]

/--
C8.  Content Validator contract: `validateXmlContent c` is true exactly
when the trimmed content is non-empty, starts with `<`, ends with `>`,
and contains the literal substrings `<policies>` and `</policies>`; the
five concrete examples of the spec behave as stated.
-/
theorem c8_content_validator :
    (∀ c : String, validateXmlContent c = true ↔
      (trimChars c.data ≠ [] ∧ (trimChars c.data).head? = some '<' ∧
       (trimChars c.data).getLast? = some '>' ∧
       (∃ u v, trimChars c.data = u ++ "<policies>".data ++ v) ∧
       (∃ u v, trimChars c.data = u ++ "</policies>".data ++ v)))
    ∧ validateXmlContent "" = false
    ∧ validateXmlContent "   " = false
    ∧ validateXmlContent "not xml" = false
    ∧ validateXmlContent "<root></root>" = false
    ∧ validateXmlContent "<policies><inbound/></policies>" = true := by
  refine ⟨?_, by decide, by decide, by decide, by decide, by decide⟩
  intro c
  rw [validateXmlContent_eq_checks]
  simp only [Bool.and_eq_true, Bool.not_eq_true', singleton_isPrefixOf_iff,
    singleton_isSuffixOf_iff, containsSub_iff]
  constructor
  · rintro ⟨⟨⟨⟨h1, h2⟩, h3⟩, h4⟩, h5⟩
    refine ⟨?_, h2, h3, h4, h5⟩
    intro hnil
    rw [hnil] at h1
    simp at h1
  · rintro ⟨h1, h2, h3, h4, h5⟩
    refine ⟨⟨⟨⟨?_, h2⟩, h3⟩, h4⟩, h5⟩
    cases ht : trimChars c.data with
    | nil => exact absurd ht h1
    | cons a t => rfl

/-! ### Existence guard and write-failure message extraction -/

/--
C3.  Existence guard before API-level writes: when `listApis` does not
contain the target `apiId`, `updateApiPolicy` returns `updated = false`
with the diagnostic message naming the `apiId` and enumerating the
available API identifiers, and the underlying write is not invoked
(second component `false`).
-/
theorem c3_existence_guard (env : RemoteEnv) (apiId content : String)
    (h : env.apis.contains apiId = false) :
    updateApiPolicy env apiId content =
      ({ apiId := apiId, updated := false,
         error := some ("API " ++ squote ++ apiId ++ squote
           ++ " not found. Available APIs: " ++ joinComma env.apis) },
       false) := by
  have h' : ¬ (env.apis.contains apiId = true) := by
    rw [h]
    exact Bool.false_ne_true
  unfold updateApiPolicy
  rw [if_neg h']

theorem c3_existence_guard_witness :
    c3Env.apis.contains "api1" = false ∧
    updateApiPolicy c3Env "api1" "<policies></policies>" =
      ({ apiId := "api1", updated := false,
         error := some ("API " ++ squote ++ "api1" ++ squote
           ++ " not found. Available APIs: " ++ joinComma c3Env.apis) },
       false) :=
  ⟨by decide, c3_existence_guard c3Env "api1" "<policies></policies>" (by decide)⟩

/--
C9.  Write-failure message extraction chain: a failing write makes
`updateApiPolicyDirect` return `updated = false` with the message of
the extraction chain, and the chain prefers the truthy nested
`response.data.error.message`, then the truthy `response.data.message`,
then the raw message of an `Error` instance, then the constant
`Unknown error` for a thrown non-`Error` value.
-/
theorem c9_error_extraction :
    (∀ (env : RemoteEnv) (apiId content : String) (e : JsError),
        env.apiWrite apiId content = .error e →
        updateApiPolicyDirect env apiId content =
          { apiId := apiId, updated := false,
            error := some (extractAzureErrorMessage e) })
    ∧ (∀ (message nested : String) (top : Option String), nested ≠ "" →
        extractAzureErrorMessage
          (.jsError message (some (some nested, top))) = nested)
    ∧ (∀ (message top : String), top ≠ "" →
        extractAzureErrorMessage
          (.jsError message (some (none, some top))) = top)
    ∧ (∀ (message top : String), top ≠ "" →
        extractAzureErrorMessage
          (.jsError message (some (some "", some top))) = top)
    ∧ (∀ message : String,
        extractAzureErrorMessage (.jsError message none) = message)
    ∧ (∀ message : String,
        extractAzureErrorMessage
          (.jsError message (some (none, none))) = message)
    ∧ (∀ message : String,
        extractAzureErrorMessage
          (.jsError message (some (some "", some ""))) = message)
    ∧ extractAzureErrorMessage .nonError = "Unknown error" := by
  refine ⟨?_, ?_, ?_, ?_, fun _ => rfl, fun _ => rfl, fun _ => rfl, rfl⟩
  · intro env apiId content e h
    unfold updateApiPolicyDirect
    rw [h]
  · intro message nested top h
    simp [extractAzureErrorMessage, truthyField, h]
  · intro message top h
    simp [extractAzureErrorMessage, truthyField, h]
  · intro message top h
    simp [extractAzureErrorMessage, truthyField, h]

theorem c9_error_extraction_witness :
    (updateApiPolicyDirect c9Env "api1" "<policies></policies>" =
      { apiId := "api1", updated := false,
        error := some (extractAzureErrorMessage
          (.jsError "socket closed" (some (some "Azure says no", none)))) })
    ∧ extractAzureErrorMessage
        (.jsError "m" (some (some "nested", none))) = "nested" :=
  ⟨c9_error_extraction.1 c9Env "api1" "<policies></policies>" _ rfl,
   c9_error_extraction.2.1 "m" "nested" none (by decide)⟩

/-! ### Orchestrator loop -/

theorem foldl_stepPolicy_processed (behav : PolicyFile → StepOutcome)
    (policies : List PolicyFile) (st : LoopState) :
    (policies.foldl (stepPolicy behav) st).processed =
      st.processed ++ policies.map (fun p => (p, behav p)) := by
  induction policies generalizing st with
  | nil => simp
  | cons p t ih =>
    rw [List.foldl_cons, ih]
    simp [stepPolicy]

theorem stepEtag_eq_successToken (x : String) (oc : StepOutcome) :
    stepEtag x oc = (successToken oc).getD x := by
  cases oc with
  | thrown e => rfl
  | ok r =>
    simp only [stepEtag, successToken]
    cases hr : r.updated
    · simp
    · cases he : r.etag with
      | none => simp
      | some t =>
        cases ht : t == ""
        · simp [ht]
        · simp [ht]

theorem foldl_stepPolicy_lastETag (behav : PolicyFile → StepOutcome)
    (policies : List PolicyFile) (st : LoopState) :
    (policies.foldl (stepPolicy behav) st).lastETag =
      (((policies.map behav).filterMap successToken).getLast?).getD
        st.lastETag := by
  induction policies generalizing st with
  | nil => simp
  | cons p t ih =>
    rw [List.foldl_cons, ih]
    simp only [List.map_cons, List.filterMap_cons]
    cases hoc : successToken (behav p) with
    | none =>
      have : (stepPolicy behav st p).lastETag = st.lastETag := by
        simp [stepPolicy, stepEtag_eq_successToken, hoc]
      rw [this]
    | some tok =>
      have : (stepPolicy behav st p).lastETag = tok := by
        simp [stepPolicy, stepEtag_eq_successToken, hoc]
      rw [this, getLast?_cons_getD]

/--
C1.  Failure isolation of the orchestrator loop: the update loop
processes every document in list order whatever the outcomes, including
thrown exceptions; the full run therefore attempts every discovered
document once it reaches the loop; and in the two-document run where
the first write fails and the second succeeds, both documents appear in
the trace, the first is reported failed, and the published `etag` is
the token of the second.
-/
theorem c1_failure_isolation :
    (∀ (behav : PolicyFile → StepOutcome) (policies : List PolicyFile),
        (runLoop behav policies).processed.map Prod.fst = policies)
    ∧ (∀ env : RunEnv, env.connectionOk = true →
        validatePolicies env.discovered = true →
        (run env).trace.map Prod.fst = env.discovered)
    ∧ (∀ (env : RunEnv) (p1 p2 : PolicyFile) (r1 r2 : PolicyUpdateResult)
          (t2 : String),
        env.connectionOk = true →
        env.discovered = [p1, p2] →
        validatePolicies [p1, p2] = true →
        env.behav p1 = .ok r1 → r1.updated = false →
        env.behav p2 = .ok r2 → r2.updated = true →
        r2.etag = some t2 → t2 ≠ "" →
        (run env).trace = [(p1, .ok r1), (p2, .ok r2)] ∧
          r1.updated = false ∧ (run env).etag = t2) := by
  have hloop : ∀ (behav : PolicyFile → StepOutcome)
      (policies : List PolicyFile),
      (runLoop behav policies).processed.map Prod.fst = policies := by
    intro behav policies
    rw [runLoop, foldl_stepPolicy_processed]
    simp only [List.nil_append, List.map_map]
    have hcomp : (Prod.fst ∘ fun p => (p, behav p)) = id := rfl
    rw [hcomp, List.map_id]
  refine ⟨hloop, ?_, ?_⟩
  · intro env hc hv
    have hne : env.discovered.isEmpty = false := by
      cases hd : env.discovered with
      | nil =>
        rw [hd] at hv
        exact absurd hv (by simp [validatePolicies])
      | cons a t => rfl
    simp only [run, hc, hne, hv]
    exact hloop env.behav env.discovered
  · intro env p1 p2 r1 r2 t2 hc hd hv h1 h1u h2 h2u h2e h2ne
    have hne : env.discovered.isEmpty = false := by rw [hd]; rfl
    simp only [run, hc, hne, hd, hv]
    have htr : (runLoop env.behav [p1, p2]).processed =
        [(p1, .ok r1), (p2, .ok r2)] := by
      rw [runLoop, foldl_stepPolicy_processed]
      simp [h1, h2]
    have het : (runLoop env.behav [p1, p2]).lastETag = t2 := by
      rw [runLoop, foldl_stepPolicy_lastETag]
      have hs1 : successToken (env.behav p1) = none := by
        rw [h1]
        simp [successToken, h1u]
      have hs2 : successToken (env.behav p2) = some t2 := by
        rw [h2]
        simp [successToken, h2u, h2e, h2ne]
      simp [hs1, hs2]
    exact ⟨htr, h1u, het⟩

theorem c1_failure_isolation_witness :
    (run c1Env).trace = [(c1P1, .ok c1R1), (c1P2, .ok c1R2)] ∧
      c1R1.updated = false ∧ (run c1Env).etag = "etag-2" :=
  c1_failure_isolation.2.2 c1Env c1P1 c1P2 c1R1 c1R2 "etag-2"
    rfl rfl (by decide) (by decide) (by decide) (by decide) (by decide)
    (by decide) (by decide)

/--
C2.  Final etag output contract: the published `etag` always equals the
token of the last successful result in iteration order whose token is
non-empty (empty string when there is none), and every fatal or empty
path publishes the empty string.
-/
theorem c2_final_etag :
    (∀ env : RunEnv, (run env).etag = lastSuccessEtag (run env).trace)
    ∧ (∀ env : RunEnv,
        env.connectionOk = false ∨ env.discovered = [] ∨
          validatePolicies env.discovered = false →
        (run env).etag = "") := by
  constructor
  · intro env
    by_cases hc : env.connectionOk = true
    · by_cases hd : env.discovered.isEmpty = true
      · simp [run, hc, hd, lastSuccessEtag]
      · have hd' : env.discovered.isEmpty = false := eq_false_of_ne_true hd
        by_cases hv : validatePolicies env.discovered = true
        · simp only [run, hc, Bool.not_true, Bool.false_eq_true, if_false,
            hd', hv, if_true]
          rw [runLoop, foldl_stepPolicy_lastETag, foldl_stepPolicy_processed]
          simp only [lastSuccessEtag, List.nil_append, List.filterMap_map]
          rfl
        · have hv' : validatePolicies env.discovered = false :=
            eq_false_of_ne_true hv
          simp [run, hc, hd', hv', lastSuccessEtag]
    · have hc' : env.connectionOk = false := eq_false_of_ne_true hc
      simp [run, hc', lastSuccessEtag]
  · intro env h
    rcases h with h | h | h
    · simp [run, h]
    · cases hc : env.connectionOk <;> simp [run, hc, h]
    · cases hc : env.connectionOk <;> cases hd : env.discovered.isEmpty <;>
        simp [run, hc, hd, h]

theorem c2_final_etag_witness :
    ((run c2Env).etag = lastSuccessEtag (run c2Env).trace) ∧
      (run c5EnvPre).etag = "" :=
  ⟨c2_final_etag.1 c2Env, c2_final_etag.2 c5EnvPre (Or.inr (Or.inl rfl))⟩

/--
C5 counterexample input: a run whose connection test succeeds and whose
discovery yields zero documents completes without `setFailed` — the
claim that such a run is reported failed does not hold on the code.
-/
theorem c5_counterexample :
    c5EnvPre.discovered = [] ∧ (run c5EnvPre).failed = false ∧
      (run c5EnvPre).etag = "" ∧ (run c5EnvPre).trace = [] :=
  ⟨rfl, rfl, rfl, rfl⟩

/--
C5 (amended).  Empty discovered set: the run makes no remote update
call and publishes the empty `etag`, but is reported as a successful
early return with a warning, not as a failed run; the aggregate
validator would reject the empty list, but the orchestrator returns
before consulting it.
-/
theorem c5_empty_discovery (env : RunEnv) (hc : env.connectionOk = true)
    (hd : env.discovered = []) :
    (run env).failed = false ∧ (run env).etag = "" ∧
      (run env).trace = [] ∧ validatePolicies env.discovered = false := by
  simp [run, hc, hd, validatePolicies]

theorem c5_empty_discovery_witness :
    (run c5EnvPre).failed = false ∧ (run c5EnvPre).etag = "" ∧
      (run c5EnvPre).trace = [] ∧
      validatePolicies c5EnvPre.discovered = false :=
  c5_empty_discovery c5EnvPre rfl rfl

/-! ### Aggregate validator -/

theorem contentFold_eq (policies : List PolicyFile) (v0 : Bool) :
    policies.foldl
      (fun v p => if validateXmlContent p.content then v else false) v0 =
      (v0 && policies.all (fun p => validateXmlContent p.content)) := by
  induction policies generalizing v0 with
  | nil => simp
  | cons p t ih =>
    rw [List.foldl_cons, ih]
    cases hp : validateXmlContent p.content <;> simp [hp]

theorem checkFold_eq (m : List (String × Nat × Nat)) (v0 : Bool) :
    m.foldl (fun v e => if 1 < e.2.1 then false else v) v0 =
      (v0 && m.all (fun e => decide (e.2.1 ≤ 1))) := by
  induction m generalizing v0 with
  | nil => simp
  | cons e t ih =>
    rw [List.foldl_cons, ih]
    by_cases hp : 1 < e.2.1
    · have hle : ¬ e.2.1 ≤ 1 := Nat.not_le.mpr hp
      simp [hp, hle]
    · have hle : e.2.1 ≤ 1 := Nat.not_lt.mp hp
      simp [hp, hle]

theorem countsFor_updateCounts (m : List (String × Nat × Nat)) (k : String)
    (b : Bool) (q : String) :
    countsFor (updateCounts m k b) q =
      (if q = k then
        (if b then ((countsFor m k).1 + 1, (countsFor m k).2)
         else ((countsFor m k).1, (countsFor m k).2 + 1))
       else countsFor m q) := by
  induction m with
  | nil =>
    by_cases hq : q = k
    · cases b <;> simp [updateCounts, countsFor, beq_iff_eq, hq]
    · cases b <;> simp [updateCounts, countsFor, beq_iff_eq, hq, Ne.symm hq]
  | cons e t ih =>
    obtain ⟨k1, a, o⟩ := e
    by_cases h1 : k1 = k
    · subst h1
      by_cases hq : q = k1
      · subst hq
        cases b <;> simp [updateCounts, countsFor, beq_iff_eq]
      · have hq' : ¬ k1 = q := fun h => hq h.symm
        cases b <;> simp [updateCounts, countsFor, beq_iff_eq, hq, hq']
    · by_cases hq : q = k1
      · subst hq
        simp [updateCounts, countsFor, beq_iff_eq, h1]
      · have hq' : ¬ k1 = q := fun h => hq h.symm
        simp [updateCounts, countsFor, beq_iff_eq, h1, hq', ih]

theorem countsFor_foldl (policies : List PolicyFile)
    (m : List (String × Nat × Nat)) (k : String) :
    countsFor
      (policies.foldl
        (fun acc p => updateCounts acc p.apiId (p.scope == PolicyScope.api))
        m) k =
      ((countsFor m k).1 + apiScopeCount policies k,
       (countsFor m k).2 + opScopeCount policies k) := by
  induction policies generalizing m with
  | nil => simp [apiScopeCount, opScopeCount]
  | cons p t ih =>
    rw [List.foldl_cons, ih, countsFor_updateCounts]
    by_cases hk : k = p.apiId
    · have hk' : (p.apiId == k) = true := beq_iff_eq.mpr hk.symm
      cases hs : p.scope
      · have hb : (p.scope == PolicyScope.api) = true := by rw [hs]; rfl
        simp only [hk, if_true, hb, apiScopeCount, opScopeCount,
          List.filter_cons, hk', hs, if_true, if_false]
        simp [apiScopeCount, opScopeCount, hk]
        all_goals omega
      · have hb : (p.scope == PolicyScope.api) = false := by rw [hs]; rfl
        simp only [hk, if_true, hb, apiScopeCount, opScopeCount,
          List.filter_cons, hk', hs]
        simp [apiScopeCount, opScopeCount, hk]
        all_goals omega
    · have hk' : (p.apiId == k) = false := by
        cases hb : p.apiId == k
        · rfl
        · exact absurd (beq_iff_eq.mp hb).symm hk
      simp only [hk, if_false, apiScopeCount, opScopeCount,
        List.filter_cons, hk', Bool.false_and, if_false]
      simp [apiScopeCount, opScopeCount]

theorem countsFor_buildCounts (policies : List PolicyFile) (k : String) :
    countsFor (buildCounts policies) k =
      (apiScopeCount policies k, opScopeCount policies k) := by
  rw [buildCounts, countsFor_foldl]
  simp [countsFor]

theorem keysOf_cons (e : String × Nat × Nat)
    (t : List (String × Nat × Nat)) : keysOf (e :: t) = e.1 :: keysOf t :=
  rfl

theorem keysOf_updateCounts_sub (m : List (String × Nat × Nat)) (k : String)
    (b : Bool) (x : String) (hx : x ∈ keysOf (updateCounts m k b)) :
    x ∈ keysOf m ∨ x = k := by
  induction m with
  | nil =>
    rw [updateCounts, keysOf_cons] at hx
    rcases List.mem_cons.mp hx with h | h
    · exact Or.inr h
    · simp [keysOf] at h
  | cons e t ih =>
    obtain ⟨k1, a, o⟩ := e
    rw [updateCounts] at hx
    by_cases h1 : (k1 == k) = true
    · rw [if_pos h1, keysOf_cons] at hx
      rw [keysOf_cons]
      exact Or.inl hx
    · rw [if_neg h1, keysOf_cons] at hx
      rcases List.mem_cons.mp hx with h | h
      · refine Or.inl ?_
        rw [keysOf_cons, h]
        exact List.mem_cons_self _ _
      · rcases ih h with h2 | h2
        · refine Or.inl ?_
          rw [keysOf_cons]
          exact List.mem_cons_of_mem _ h2
        · exact Or.inr h2

theorem keysOf_updateCounts_nodup (m : List (String × Nat × Nat))
    (k : String) (b : Bool) (h : (keysOf m).Nodup) :
    (keysOf (updateCounts m k b)).Nodup := by
  induction m with
  | nil =>
    rw [updateCounts, keysOf_cons]
    simp [keysOf]
  | cons e t ih =>
    obtain ⟨k1, a, o⟩ := e
    rw [keysOf_cons, List.nodup_cons] at h
    rw [updateCounts]
    by_cases h1 : (k1 == k) = true
    · rw [if_pos h1, keysOf_cons, List.nodup_cons]
      exact ⟨h.1, h.2⟩
    · rw [if_neg h1, keysOf_cons, List.nodup_cons]
      refine ⟨?_, ih h.2⟩
      intro hx
      rcases keysOf_updateCounts_sub t k b k1 hx with hmem | heq
      · exact h.1 hmem
      · exact h1 (beq_iff_eq.mpr heq)

theorem buildCounts_nodup (policies : List PolicyFile) :
    (keysOf (buildCounts policies)).Nodup := by
  suffices hgen : ∀ m : List (String × Nat × Nat), (keysOf m).Nodup →
      (keysOf (policies.foldl
        (fun acc p => updateCounts acc p.apiId (p.scope == PolicyScope.api))
        m)).Nodup by
    exact hgen [] (by simp [keysOf])
  induction policies with
  | nil => intro m hm; exact hm
  | cons p t ih =>
    intro m hm
    exact ih _ (keysOf_updateCounts_nodup m p.apiId _ hm)

theorem countsFor_mem (m : List (String × Nat × Nat))
    (h : (keysOf m).Nodup) (e : String × Nat × Nat) (he : e ∈ m) :
    countsFor m e.1 = e.2 := by
  induction m with
  | nil => simp at he
  | cons e0 t ih =>
    simp only [keysOf, List.map_cons, List.nodup_cons] at h
    rcases List.mem_cons.mp he with he | he
    · subst he
      simp [countsFor]
    · have hne : (e0.1 == e.1) = false := by
        cases hb : e0.1 == e.1
        · rfl
        · exact absurd (beq_iff_eq.mp hb ▸ List.mem_map_of_mem Prod.fst he)
            h.1
      simp only [countsFor, hne, Bool.false_eq_true, if_false]
      exact ih h.2 he

theorem all_countsFor_le (m : List (String × Nat × Nat))
    (h : ∀ e ∈ m, e.2.1 ≤ 1) (k : String) : (countsFor m k).1 ≤ 1 := by
  induction m with
  | nil => simp [countsFor]
  | cons e t ih =>
    by_cases hk : (e.1 == k) = true
    · simp only [countsFor, hk, if_true]
      exact h e (List.mem_cons_self e t)
    · have hk' : (e.1 == k) = false := eq_false_of_ne_true hk
      simp only [countsFor, hk', Bool.false_eq_true, if_false]
      exact ih (fun e' he' => h e' (List.mem_cons_of_mem e he'))

theorem validatePolicies_iff (policies : List PolicyFile) :
    validatePolicies policies = true ↔
      (policies ≠ [] ∧
        (∀ p ∈ policies, validateXmlContent p.content = true) ∧
        (∀ k : String, apiScopeCount policies k ≤ 1)) := by
  by_cases hps : policies = []
  · subst hps
    simp [validatePolicies]
  · have hne : policies.isEmpty = false := by
      cases hc : policies with
      | nil => exact absurd hc hps
      | cons a t => rfl
    unfold validatePolicies
    rw [hne]
    simp only [Bool.false_eq_true, if_false]
    rw [contentFold_eq, checkFold_eq]
    simp only [Bool.true_and, Bool.and_eq_true, List.all_eq_true,
      decide_eq_true_eq]
    constructor
    · rintro ⟨hcont, hcnt⟩
      refine ⟨hps, hcont, ?_⟩
      intro k
      have := all_countsFor_le (buildCounts policies) hcnt k
      rwa [countsFor_buildCounts] at this
    · rintro ⟨-, hcont, hcnt⟩
      refine ⟨hcont, ?_⟩
      intro e he
      have := countsFor_mem (buildCounts policies)
        (buildCounts_nodup policies) e he
      rw [countsFor_buildCounts] at this
      have h1 : e.2.1 = apiScopeCount policies e.1 := by
        rw [← this]
      rw [h1]
      exact hcnt e.1

theorem c4OpDocs_content (n : Nat) (p : PolicyFile)
    (hp : p ∈ c4OpDocs n) : p.content = "<policies></policies>" := by
  induction n with
  | zero => simp [c4OpDocs] at hp
  | succ k ih =>
    rcases List.mem_cons.mp hp with h | h
    · rw [h]; rfl
    · exact ih h

theorem c4OpDocs_apiScopeCount (n : Nat) (k : String) :
    apiScopeCount (c4OpDocs n) k = 0 := by
  induction n with
  | zero => rfl
  | succ m ih =>
    simp only [c4OpDocs, apiScopeCount, List.filter_cons]
    have : ((c4OpDoc (m + 1)).apiId == k &&
        (c4OpDoc (m + 1)).scope == PolicyScope.api) = false := by
      simp [c4OpDoc]
    rw [this]
    simp only [Bool.false_eq_true, if_false]
    exact ih

/--
C4.  Aggregate validator correctness: `validatePolicies` is true exactly
when the input is non-empty, every content passes the content validator,
and no apiId group has more than one api-scope document; in particular
it is false for the empty list and for two api-scope documents sharing
one apiId, and true for one api-scope document plus N distinct
operation-scope documents of the same apiId with valid content.
-/
theorem c4_validate_policies :
    (∀ policies : List PolicyFile, validatePolicies policies = true ↔
      (policies ≠ [] ∧
        (∀ p ∈ policies, validateXmlContent p.content = true) ∧
        (∀ k : String, apiScopeCount policies k ≤ 1)))
    ∧ validatePolicies [] = false
    ∧ validatePolicies [c4ApiDoc, c4ApiDoc2] = false
    ∧ (∀ n : Nat, validatePolicies (c4ApiDoc :: c4OpDocs n) = true) := by
  refine ⟨validatePolicies_iff, by decide, by decide, ?_⟩
  intro n
  refine (validatePolicies_iff _).mpr ⟨by simp, ?_, ?_⟩
  · intro p hp
    rcases List.mem_cons.mp hp with h | h
    · rw [h]; decide
    · rw [c4OpDocs_content n p h]; decide
  · intro k
    simp only [apiScopeCount, List.filter_cons]
    by_cases hk : ((c4ApiDoc.apiId == k && c4ApiDoc.scope == PolicyScope.api)
        = true)
    · rw [hk]
      have := c4OpDocs_apiScopeCount n k
      simp only [apiScopeCount] at this
      simp [this]
    · rw [eq_false_of_ne_true hk]
      have := c4OpDocs_apiScopeCount n k
      simp only [apiScopeCount] at this
      simp [this]

/-! ### Discovery invariant -/

theorem foldl_policy_inv {α : Type} (P : PolicyFile → Prop)
    (step : List PolicyFile → α → List PolicyFile)
    (hstep : ∀ acc x q, (∀ r ∈ acc, P r) → q ∈ step acc x → P q)
    (l : List α) (acc : List PolicyFile) (hacc : ∀ r ∈ acc, P r) :
    ∀ q ∈ l.foldl step acc, P q := by
  induction l generalizing acc with
  | nil => exact hacc
  | cons x t ih =>
    exact ih (step acc x) (fun r hr => hstep acc x r hacc hr)

theorem discoverDefaultStep_inv (env : FsEnv) (acc : List PolicyFile)
    (filePath : String) (q : PolicyFile)
    (hacc : ∀ r ∈ acc, (r.operationId = none ↔ r.scope = PolicyScope.api))
    (hq : q ∈ discoverDefaultStep env acc filePath) :
    q.operationId = none ↔ q.scope = PolicyScope.api := by
  unfold discoverDefaultStep at hq
  cases hr : env.readFile (env.resolve filePath) with
  | error e =>
    rw [hr] at hq
    exact hacc q hq
  | ok content =>
    rw [hr] at hq
    cases hv : validateXmlContent content with
    | false =>
      simp only [hv, Bool.not_false, if_true] at hq
      exact hacc q hq
    | true =>
      simp only [hv, Bool.not_true, Bool.false_eq_true, if_false] at hq
      cases he : extractApiIdFromPath filePath with
      | none =>
        rw [he] at hq
        exact hacc q hq
      | some apiId =>
        rw [he] at hq
        cases ha : isApiLevelPolicy filePath with
        | true =>
          simp only [ha, if_true] at hq
          rcases List.mem_append.mp hq with h | h
          · exact hacc q h
          · rw [List.mem_singleton] at h
            subst h
            simp
        | false =>
          simp only [ha, Bool.false_eq_true, if_false] at hq
          cases ho : isOperationLevelPolicy filePath with
          | false =>
            simp only [ho, Bool.false_eq_true, if_false] at hq
            exact hacc q hq
          | true =>
            simp only [ho, if_true] at hq
            cases hoi : extractOperationIdFromPath filePath with
            | none =>
              rw [hoi] at hq
              exact hacc q hq
            | some operationId =>
              rw [hoi] at hq
              rcases List.mem_append.mp hq with h | h
              · exact hacc q h
              · rw [List.mem_singleton] at h
                subst h
                simp

theorem manifestApiPart_inv (env : FsEnv) (acc : List PolicyFile)
    (apiId : String) (apiConfig : PolicyManifestEntry) (q : PolicyFile)
    (hacc : ∀ r ∈ acc, (r.operationId = none ↔ r.scope = PolicyScope.api))
    (hq : q ∈ manifestApiPart env acc apiId apiConfig) :
    q.operationId = none ↔ q.scope = PolicyScope.api := by
  unfold manifestApiPart at hq
  split at hq
  · exact hacc q hq
  · split at hq
    · exact hacc q hq
    · split at hq
      · rcases List.mem_append.mp hq with h | h
        · exact hacc q h
        · rw [List.mem_singleton] at h
          subst h
          simp
      · exact hacc q hq

theorem manifestOpStep_inv (env : FsEnv) (apiId : String)
    (acc : List PolicyFile) (op : String × String) (q : PolicyFile)
    (hacc : ∀ r ∈ acc, (r.operationId = none ↔ r.scope = PolicyScope.api))
    (hq : q ∈ manifestOpStep env apiId acc op) :
    q.operationId = none ↔ q.scope = PolicyScope.api := by
  unfold manifestOpStep at hq
  split at hq
  · exact hacc q hq
  · split at hq
    · rcases List.mem_append.mp hq with h | h
      · exact hacc q h
      · rw [List.mem_singleton] at h
        subst h
        simp
    · exact hacc q hq

theorem discoverManifestStep_inv (env : FsEnv) (acc : List PolicyFile)
    (entry : String × PolicyManifestEntry) (q : PolicyFile)
    (hacc : ∀ r ∈ acc, (r.operationId = none ↔ r.scope = PolicyScope.api))
    (hq : q ∈ discoverManifestStep env acc entry) :
    q.operationId = none ↔ q.scope = PolicyScope.api := by
  unfold discoverManifestStep at hq
  cases hop : entry.2.operations with
  | none =>
    rw [hop] at hq
    exact manifestApiPart_inv env acc entry.1 entry.2 q hacc hq
  | some operationEntries =>
    rw [hop] at hq
    exact foldl_policy_inv _ (manifestOpStep env entry.1)
      (fun acc2 x r ha hr => manifestOpStep_inv env entry.1 acc2 x r ha hr)
      operationEntries _
      (fun r hr => manifestApiPart_inv env acc entry.1 entry.2 r hacc hr)
      q hq

/--
C10.  Discovered-document invariant: every policy file produced by
`discoverPolicies`, under either strategy, has `operationId` present
exactly when its scope is `operation` and absent exactly when its scope
is `api`.
-/
theorem c10_discovered_invariant (env : FsEnv) (manifestPath : Option String)
    (p : PolicyFile) (hp : p ∈ discoverPolicies env manifestPath) :
    (p.operationId ≠ none ↔ p.scope = PolicyScope.operation) ∧
      (p.operationId = none ↔ p.scope = PolicyScope.api) := by
  have hinv : p.operationId = none ↔ p.scope = PolicyScope.api := by
    unfold discoverPolicies at hp
    split at hp
    · unfold discoverPoliciesFromManifest at hp
      split at hp
      · simp at hp
      · exact foldl_policy_inv _ (discoverManifestStep env)
          (fun acc x r ha hr => discoverManifestStep_inv env acc x r ha hr)
          _ [] (by simp) p hp
    · unfold discoverPoliciesFromDefaultStructure at hp
      split at hp
      · simp at hp
      · exact foldl_policy_inv _ (discoverDefaultStep env)
          (fun acc x r ha hr => discoverDefaultStep_inv env acc x r ha hr)
          _ [] (by simp) p hp
  refine ⟨?_, hinv⟩
  constructor
  · intro hne
    cases hs : p.scope with
    | api => exact absurd (hinv.mpr hs) hne
    | operation => rfl
  · intro hop hn
    have : p.scope = PolicyScope.api := hinv.mp hn
    rw [hop] at this
    exact PolicyScope.noConfusion this

theorem c10_discovered_invariant_witness :
    c10Doc ∈ discoverPolicies c10Env none ∧
      ((c10Doc.operationId ≠ none ↔ c10Doc.scope = PolicyScope.operation) ∧
        (c10Doc.operationId = none ↔ c10Doc.scope = PolicyScope.api)) :=
  ⟨by decide, c10_discovered_invariant c10Env none c10Doc (by decide)⟩

/-! ### Path grammar resolver -/

theorem drop_policies (rest : List Char) :
    ("policies".data ++ rest).drop 8 = rest := by
  have h8 : ("policies".data).length = 8 := rfl
  rw [← h8, List.drop_left]

theorem drop_operations (rest : List Char) :
    ("operations".data ++ rest).drop 10 = rest := by
  have h10 : ("operations".data).length = 10 := rfl
  rw [← h10, List.drop_left]

theorem isEmpty_false_of_ne_nil {l : List Char} (h : l ≠ []) :
    l.isEmpty = false := by
  cases l with
  | nil => exact absurd rfl h
  | cons a t => rfl

theorem ne_nil_of_isEmpty_false {l : List Char} (h : l.isEmpty = false) :
    l ≠ [] := by
  cases l with
  | nil => simp at h
  | cons a t => simp

theorem nonSep_false_of_sep {c : Char} (h : sepChar c = true) :
    (fun ch => !sepChar ch) c = false := by
  simp only [h, Bool.not_true]

theorem apiLevelAt_iff (l : List Char) :
    apiLevelAt l = true ↔ AtApiShape l := by
  constructor
  · intro h
    unfold apiLevelAt at h
    rw [Bool.and_eq_true] at h
    obtain ⟨hpre, h2⟩ := h
    obtain ⟨rest0, hrest0⟩ := List.isPrefixOf_iff_prefix.mp hpre
    have hdrop : l.drop 8 = rest0 := by
      rw [← hrest0, drop_policies]
    rw [hdrop] at h2
    cases rest0 with
    | nil => simp at h2
    | cons c rest =>
      simp only [Bool.and_eq_true] at h2
      obtain ⟨hc, h3⟩ := h2
      obtain ⟨hwne, h4⟩ := h3
      cases hdw : rest.dropWhile (fun ch => !sepChar ch) with
      | nil => rw [hdw] at h4; simp at h4
      | cons s tail =>
        rw [hdw] at h4
        simp only [beq_iff_eq] at h4
        have hs : sepChar s = true := by
          have := dropWhile_head_false rest s tail hdw
          simpa using this
        have hsplit : rest.takeWhile (fun ch => !sepChar ch) ++
            (s :: tail) = rest := by
          rw [← hdw, List.takeWhile_append_dropWhile]
        have h4x : tail = "api.xml".data := h4
        refine ⟨c, s, rest.takeWhile (fun ch => !sepChar ch), ?_, hc, hs,
          ne_nil_of_isEmpty_false (by simpa using hwne), ?_⟩
        · rw [← hrest0]
          congr 1
          rw [← h4x, hsplit]
        · exact takeWhile_all rest
  · rintro ⟨s1, s2, w, hl, hs1, hs2, hw, hall⟩
    have hsplit := takeWhile_run (p := fun ch => !sepChar ch)
      w s2 "api.xml".data hall (nonSep_false_of_sep hs2)
    have hpre : "policies".data.isPrefixOf l = true :=
      List.isPrefixOf_iff_prefix.mpr ⟨_, hl.symm⟩
    have hdrop : l.drop 8 = s1 :: (w ++ s2 :: "api.xml".data) := by
      rw [hl, drop_policies]
    unfold apiLevelAt
    rw [Bool.and_eq_true]
    refine ⟨hpre, ?_⟩
    rw [hdrop]
    simp only [hsplit.1, hsplit.2]
    simp [hs1, isEmpty_false_of_ne_nil hw]

theorem opLevelAt_iff (l : List Char) :
    opLevelAt l = true ↔ AtOpShape l := by
  constructor
  · intro h
    unfold opLevelAt at h
    rw [Bool.and_eq_true] at h
    obtain ⟨hpre, h2⟩ := h
    obtain ⟨rest0, hrest0⟩ := List.isPrefixOf_iff_prefix.mp hpre
    have hdrop : l.drop 8 = rest0 := by
      rw [← hrest0, drop_policies]
    rw [hdrop] at h2
    cases rest0 with
    | nil => simp at h2
    | cons c rest =>
      simp only [Bool.and_eq_true] at h2
      obtain ⟨hc, hwne, h4⟩ := h2
      cases hdw : rest.dropWhile (fun ch => !sepChar ch) with
      | nil => rw [hdw] at h4; simp at h4
      | cons s tail =>
        rw [hdw] at h4
        simp only [Bool.and_eq_true] at h4
        obtain ⟨hopre, h5⟩ := h4
        have hs : sepChar s = true := by
          have := dropWhile_head_false rest s tail hdw
          simpa using this
        obtain ⟨tail0, htail0⟩ := List.isPrefixOf_iff_prefix.mp hopre
        have hdrop10 : tail.drop 10 = tail0 := by
          rw [← htail0, drop_operations]
        rw [hdrop10] at h5
        cases tail0 with
        | nil => simp at h5
        | cons c2 rest2 =>
          simp only [Bool.and_eq_true, decide_eq_true_eq] at h5
          obtain ⟨⟨⟨hc2, hall2⟩, hsuf⟩, hlen⟩ := h5
          obtain ⟨w2, hw2⟩ := List.isSuffixOf_iff_suffix.mp hsuf
          have hw2ne : w2 ≠ [] := by
            intro hnil
            rw [hnil] at hw2
            rw [← hw2] at hlen
            simp at hlen
          have hw2all : w2.all nonSep = true := by
            rw [← hw2, List.all_append, Bool.and_eq_true] at hall2
            exact hall2.1
          refine ⟨c, s, c2, rest.takeWhile (fun ch => !sepChar ch), w2,
            ?_, hc, hs, hc2,
            ne_nil_of_isEmpty_false (by simpa using hwne),
            takeWhile_all rest, hw2ne, hw2all⟩
          have hsplit : rest.takeWhile (fun ch => !sepChar ch) ++
              (s :: tail) = rest := by
            rw [← hdw, List.takeWhile_append_dropWhile]
          have hw2x : w2 ++ ".xml".data = rest2 := hw2
          have htail0x : "operations".data ++ c2 :: rest2 = tail := htail0
          rw [← hrest0]
          congr 1
          rw [hw2x, htail0x, hsplit]
  · rintro ⟨s1, s2, s3, w1, w2, hl, hs1, hs2, hs3, hw1, hall1, hw2, hall2⟩
    have hsplit := takeWhile_run (p := fun ch => !sepChar ch)
      w1 s2 ("operations".data ++ s3 :: (w2 ++ ".xml".data)) hall1
      (nonSep_false_of_sep hs2)
    have hpre : "policies".data.isPrefixOf l = true :=
      List.isPrefixOf_iff_prefix.mpr ⟨_, hl.symm⟩
    have hdrop : l.drop 8 =
        s1 :: (w1 ++ s2 :: ("operations".data ++ s3 :: (w2 ++ ".xml".data)))
        := by
      rw [hl, drop_policies]
    unfold opLevelAt
    rw [Bool.and_eq_true]
    refine ⟨hpre, ?_⟩
    rw [hdrop]
    simp only [hsplit.1, hsplit.2]
    have hopre : "operations".data.isPrefixOf
        ("operations".data ++ s3 :: (w2 ++ ".xml".data)) = true :=
      List.isPrefixOf_iff_prefix.mpr ⟨_, rfl⟩
    have hsuf : ".xml".data.isSuffixOf (w2 ++ ".xml".data) = true :=
      List.isSuffixOf_iff_suffix.mpr ⟨w2, rfl⟩
    have hlen : 5 ≤ (w2 ++ ".xml".data).length := by
      rw [List.length_append]
      have : 1 ≤ w2.length := List.length_pos.mpr hw2
      simp only [show (".xml".data).length = 4 from rfl]
      omega
    have hall : (w2 ++ ".xml".data).all (fun ch => !sepChar ch) = true := by
      rw [List.all_append, Bool.and_eq_true]
      exact ⟨hall2, by decide⟩
    simp [hs1, isEmpty_false_of_ne_nil hw1, hopre, drop_operations, hs3,
      hall, hsuf, hlen]
    exact List.length_pos.mpr hw2

theorem scanApiLevel_iff (l : List Char) :
    scanApiLevel l = true ↔ ∃ u t, l = u ++ t ∧ apiLevelAt t = true := by
  induction l with
  | nil =>
    rw [scanApiLevel]
    constructor
    · intro h
      exact ⟨[], [], rfl, h⟩
    · rintro ⟨u, t, heq, ht⟩
      obtain ⟨hu, htn⟩ := List.append_eq_nil.mp heq.symm
      rw [← htn]
      exact ht
  | cons c tl ih =>
    rw [scanApiLevel, Bool.or_eq_true, ih]
    constructor
    · rintro (h | ⟨u, t, heq, ht⟩)
      · exact ⟨[], c :: tl, rfl, h⟩
      · exact ⟨c :: u, t, by rw [List.cons_append, heq], ht⟩
    · rintro ⟨u, t, heq, ht⟩
      cases u with
      | nil =>
        left
        simp only [List.nil_append] at heq
        rw [heq]
        exact ht
      | cons a u' =>
        right
        refine ⟨u', t, ?_, ht⟩
        simpa using congrArg List.tail heq

theorem scanOpLevel_iff (l : List Char) :
    scanOpLevel l = true ↔ ∃ u t, l = u ++ t ∧ opLevelAt t = true := by
  induction l with
  | nil =>
    rw [scanOpLevel]
    constructor
    · intro h
      exact ⟨[], [], rfl, h⟩
    · rintro ⟨u, t, heq, ht⟩
      obtain ⟨hu, htn⟩ := List.append_eq_nil.mp heq.symm
      rw [← htn]
      exact ht
  | cons c tl ih =>
    rw [scanOpLevel, Bool.or_eq_true, ih]
    constructor
    · rintro (h | ⟨u, t, heq, ht⟩)
      · exact ⟨[], c :: tl, rfl, h⟩
      · exact ⟨c :: u, t, by rw [List.cons_append, heq], ht⟩
    · rintro ⟨u, t, heq, ht⟩
      cases u with
      | nil =>
        left
        simp only [List.nil_append] at heq
        rw [heq]
        exact ht
      | cons a u' =>
        right
        refine ⟨u', t, ?_, ht⟩
        simpa using congrArg List.tail heq

theorem isApiLevelPolicy_iff (p : String) :
    isApiLevelPolicy p = true ↔ ApiShape p.data := by
  rw [isApiLevelPolicy, scanApiLevel_iff]
  constructor <;> rintro ⟨u, t, h1, h2⟩
  · exact ⟨u, t, h1, (apiLevelAt_iff t).mp h2⟩
  · exact ⟨u, t, h1, (apiLevelAt_iff t).mpr h2⟩

theorem isOperationLevelPolicy_iff (p : String) :
    isOperationLevelPolicy p = true ↔ OpShape p.data := by
  rw [isOperationLevelPolicy, scanOpLevel_iff]
  constructor <;> rintro ⟨u, t, h1, h2⟩
  · exact ⟨u, t, h1, (opLevelAt_iff t).mp h2⟩
  · exact ⟨u, t, h1, (opLevelAt_iff t).mpr h2⟩

/-- A non-separator run at the very end of a path, together with the
separator just before it, is unique. -/
theorem run_end_unique (L a c : List Char) (x y : Char) (b d : List Char)
    (h1 : L = a ++ x :: b) (h2 : L = c ++ y :: d)
    (hx : sepChar x = true) (hy : sepChar y = true)
    (hb : b.all nonSep = true) (hd : d.all nonSep = true) :
    a = c ∧ x = y ∧ b = d := by
  have hbx : nonSep x = false := by
    unfold nonSep
    rw [hx]
    rfl
  have hdy : nonSep y = false := by
    unfold nonSep
    rw [hy]
    rfl
  have k1 : L.reverse = b.reverse ++ x :: a.reverse := by
    rw [h1]
    simp
  have k2 : L.reverse = d.reverse ++ y :: c.reverse := by
    rw [h2]
    simp
  have e1 := takeWhile_run (p := nonSep) b.reverse x a.reverse
    (by rw [List.all_reverse]; exact hb) hbx
  have e2 := takeWhile_run (p := nonSep) d.reverse y c.reverse
    (by rw [List.all_reverse]; exact hd) hdy
  rw [← k1] at e1
  rw [← k2] at e2
  have hbd : b.reverse = d.reverse := by rw [← e1.1, ← e2.1]
  have hxy : (x :: a.reverse) = (y :: c.reverse) := by
    rw [← e1.2, ← e2.2]
  simp only [List.cons.injEq] at hxy
  refine ⟨?_, hxy.1, List.reverse_inj.mp hbd⟩
  have := hxy.2
  exact List.reverse_inj.mp this

/-- A path matched by both classifiers must end with
`policies⟨sep⟩operations⟨sep⟩api.xml`. -/
theorem both_shapes_suffix (l : List Char) (ha : ApiShape l)
    (ho : OpShape l) :
    ∃ (u : List Char) (s1 s2 : Char), sepChar s1 = true ∧
      sepChar s2 = true ∧
      l = u ++ ("policies".data ++
        s1 :: ("operations".data ++ s2 :: "api.xml".data)) := by
  obtain ⟨u, t, hut, s1, s2, w, ht, hs1, hs2, hw, hall⟩ := ha
  obtain ⟨u', t', hut', t1, t2, t3, w1, w2, ht', ht1, ht2, ht3, hw1, hall1,
    hw2, hall2⟩ := ho
  have hA : l = (u ++ "policies".data ++ s1 :: w) ++ s2 :: "api.xml".data
      := by
    rw [hut, ht]
    simp
  have hB : l = (u' ++ "policies".data ++ t1 :: w1 ++ t2 ::
      "operations".data) ++ t3 :: (w2 ++ ".xml".data) := by
    rw [hut', ht']
    simp
  have peel1 := run_end_unique l _ _ s2 t3 _ _ hA hB hs2 ht3
    (by decide)
    (by rw [List.all_append, Bool.and_eq_true]; exact ⟨hall2, by decide⟩)
  have hQ : u ++ "policies".data ++ s1 :: w =
      u' ++ "policies".data ++ t1 :: w1 ++ t2 :: "operations".data :=
    peel1.1
  have hQ1 : u ++ "policies".data ++ s1 :: w =
      (u' ++ "policies".data ++ t1 :: w1) ++ t2 :: "operations".data := by
    rw [hQ]
  have peel2 := run_end_unique (u ++ "policies".data ++ s1 :: w)
    (u ++ "policies".data) (u' ++ "policies".data ++ t1 :: w1) s1 t2 w
    "operations".data (by simp) hQ1 hs1 ht2 hall (by decide)
  refine ⟨u, s1, s2, hs1, hs2, ?_⟩
  rw [hut, ht, peel2.2.2]

theorem captureApiAt_eq_some_iff (l a : List Char) :
    captureApiAt l = some a ↔ AtCaptureShape l a := by
  constructor
  · intro h
    unfold captureApiAt at h
    split at h
    · rename_i hpre
      obtain ⟨rest0, hrest0⟩ := List.isPrefixOf_iff_prefix.mp hpre
      have hdropr : l.drop 8 = rest0 := by
        rw [← hrest0, drop_policies]
      split at h
      · exact absurd h (by simp)
      · rename_i c rest heq
        split at h
        · rename_i hc
          dsimp only [] at h
          split at h
          · exact absurd h (by simp)
          · rename_i hwne
            split at h
            · exact absurd h (by simp)
            · rename_i s tail hdw
              have ha : rest.takeWhile (fun ch => !sepChar ch) = a :=
                Option.some.inj h
              have hs : sepChar s = true := by
                have := dropWhile_head_false rest s tail hdw
                simpa using this
              have hrest : rest = a ++ s :: tail := by
                rw [← ha, ← hdw, List.takeWhile_append_dropWhile]
              refine ⟨c, s, tail, ?_, hc, hs, ?_, ?_⟩
              · rw [← hrest0]
                congr 1
                rw [← hdropr, heq, hrest]
              · intro hnil
                rw [hnil] at ha
                rw [ha] at hwne
                simp at hwne
              · rw [← ha]
                exact takeWhile_all rest
        · exact absurd h (by simp)
    · exact absurd h (by simp)
  · rintro ⟨s1, s2, v, hl, hs1, hs2, ha, hall⟩
    have hpre : "policies".data.isPrefixOf l = true :=
      List.isPrefixOf_iff_prefix.mpr ⟨_, hl.symm⟩
    have hdropr : l.drop 8 = s1 :: (a ++ s2 :: v) := by
      rw [hl, drop_policies]
    have hsplit := takeWhile_run (p := fun ch => !sepChar ch) a s2 v hall
      (nonSep_false_of_sep hs2)
    unfold captureApiAt
    rw [if_pos hpre, hdropr]
    simp only [hs1, if_true, hsplit.1, hsplit.2,
      isEmpty_false_of_ne_nil ha, Bool.false_eq_true, if_false]

theorem scanCaptureApi_head (l a : List Char) (h : captureApiAt l = some a) :
    scanCaptureApi l = some a := by
  cases l with
  | nil => rw [scanCaptureApi]; exact h
  | cons c t => rw [scanCaptureApi, h]

theorem scanCaptureApi_sound (l a : List Char)
    (h : scanCaptureApi l = some a) :
    ∃ u t, l = u ++ t ∧ captureApiAt t = some a := by
  induction l with
  | nil => exact ⟨[], [], rfl, h⟩
  | cons c tl ih =>
    rw [scanCaptureApi] at h
    cases hcap : captureApiAt (c :: tl) with
    | some w =>
      rw [hcap] at h
      refine ⟨[], c :: tl, rfl, ?_⟩
      rw [hcap, Option.some.inj h]
    | none =>
      rw [hcap] at h
      obtain ⟨u, t, heq, ht⟩ := ih h
      exact ⟨c :: u, t, by rw [List.cons_append, heq], ht⟩

theorem scanCaptureApi_isSome (u t a : List Char)
    (ht : captureApiAt t = some a) :
    ∃ b, scanCaptureApi (u ++ t) = some b := by
  induction u with
  | nil =>
    rw [List.nil_append]
    exact ⟨a, scanCaptureApi_head t a ht⟩
  | cons c u' ih =>
    rw [List.cons_append, scanCaptureApi]
    cases hcap : captureApiAt (c :: (u' ++ t)) with
    | some w => exact ⟨w, rfl⟩
    | none => exact ih

theorem scanCaptureApi_sound_leftmost (l a : List Char)
    (h : scanCaptureApi l = some a) :
    ∃ u t, l = u ++ t ∧ captureApiAt t = some a ∧
      ∀ u2 t2, l = u2 ++ t2 → u2.length < u.length →
        captureApiAt t2 = none := by
  induction l with
  | nil =>
    refine ⟨[], [], rfl, h, ?_⟩
    intro u2 t2 heq hlen
    simp at hlen
  | cons c tl ih =>
    rw [scanCaptureApi] at h
    cases hcap : captureApiAt (c :: tl) with
    | some w =>
      rw [hcap] at h
      refine ⟨[], c :: tl, rfl, ?_, ?_⟩
      · rw [hcap, Option.some.inj h]
      · intro u2 t2 heq hlen
        simp at hlen
    | none =>
      rw [hcap] at h
      obtain ⟨u, t, heq, hcapt, hmin⟩ := ih h
      refine ⟨c :: u, t, by rw [List.cons_append, heq], hcapt, ?_⟩
      intro u2 t2 heq2 hlen
      cases u2 with
      | nil =>
        simp only [List.nil_append] at heq2
        rw [← heq2]
        exact hcap
      | cons c2 u3 =>
        simp only [List.cons_append, List.cons.injEq] at heq2
        refine hmin u3 t2 heq2.2 ?_
        simp only [List.length_cons] at hlen
        omega

theorem scanCaptureApi_leftmost_complete (t a : List Char)
    (hcap : captureApiAt t = some a) :
    ∀ u : List Char,
      (∀ u2 t2 b, u ++ t = u2 ++ t2 → u2.length < u.length →
        ¬ AtCaptureShape t2 b) →
      scanCaptureApi (u ++ t) = some a := by
  intro u
  induction u with
  | nil =>
    intro _
    rw [List.nil_append]
    exact scanCaptureApi_head t a hcap
  | cons c u1 ih =>
    intro hmin
    rw [List.cons_append, scanCaptureApi]
    have hnone : captureApiAt (c :: (u1 ++ t)) = none := by
      cases hc : captureApiAt (c :: (u1 ++ t)) with
      | none => rfl
      | some b =>
        exfalso
        refine hmin [] (c :: (u1 ++ t)) b ?_ (by simp) ?_
        · rw [List.cons_append, List.nil_append]
        · exact (captureApiAt_eq_some_iff _ b).mp hc
    rw [hnone]
    refine ih ?_
    intro u2 t2 b heq hlen hshape
    refine hmin (c :: u2) t2 b ?_ ?_ hshape
    · rw [List.cons_append, List.cons_append, heq]
    · simp only [List.length_cons]
      omega

/--
C6 (amended).  The classifiers agree with the substring-anchored
regular-expression shapes; they are both true only for degenerate paths
ending in `policies`, a separator, `operations`, a separator, `api.xml`
(the occurrence of `policies` being a literal substring rather than a
whole segment), and are mutually exclusive on every other path; a path
matching neither shape makes both classifiers false.
-/
theorem c6_classifiers :
    (∀ p : String, isApiLevelPolicy p = true ↔ ApiShape p.data)
    ∧ (∀ p : String, isOperationLevelPolicy p = true ↔ OpShape p.data)
    ∧ (∀ p : String, isApiLevelPolicy p = true →
        isOperationLevelPolicy p = true →
        ∃ (u : List Char) (s1 s2 : Char), sepChar s1 = true ∧
          sepChar s2 = true ∧
          p.data = u ++ ("policies".data ++
            s1 :: ("operations".data ++ s2 :: "api.xml".data)))
    ∧ (∀ p : String, ¬ ApiShape p.data → ¬ OpShape p.data →
        isApiLevelPolicy p = false ∧ isOperationLevelPolicy p = false) := by
  refine ⟨isApiLevelPolicy_iff, isOperationLevelPolicy_iff, ?_, ?_⟩
  · intro p ha ho
    exact both_shapes_suffix p.data ((isApiLevelPolicy_iff p).mp ha)
      ((isOperationLevelPolicy_iff p).mp ho)
  · intro p ha ho
    constructor
    · cases h : isApiLevelPolicy p
      · rfl
      · exact absurd ((isApiLevelPolicy_iff p).mp h) ha
    · cases h : isOperationLevelPolicy p
      · rfl
      · exact absurd ((isOperationLevelPolicy_iff p).mp h) ho

/--
C6 counterexample: the two classifiers are not mutually exclusive —
both are true on `policies/policies/operations/api.xml`.
-/
theorem c6_counterexample :
    isApiLevelPolicy "policies/policies/operations/api.xml" = true ∧
      isOperationLevelPolicy "policies/policies/operations/api.xml" = true
    := ⟨by decide, by decide⟩

theorem c6_classifiers_witness :
    ∃ (u : List Char) (s1 s2 : Char), sepChar s1 = true ∧
      sepChar s2 = true ∧
      ("policies/policies/operations/api.xml".data) = u ++
        ("policies".data ++
          s1 :: ("operations".data ++ s2 :: "api.xml".data)) :=
  c6_classifiers.2.2.1 "policies/policies/operations/api.xml"
    (by decide) (by decide)

/--
C7 (amended).  `extractApiIdFromPath` succeeds exactly when the path
contains the literal substring `policies` followed by a separator, a
non-empty separator-free run, and another separator; the returned value
is the run at the leftmost matching occurrence (no earlier start
position matches); the occurrence of `policies` need not be a whole
path segment.
-/
theorem c7_extract_api_id :
    (∀ (p : String) (a : String), extractApiIdFromPath p = some a ↔
        LeftmostCaptureShape p.data a.data)
    ∧ (∀ p : String, (extractApiIdFromPath p).isSome = true ↔
        ∃ a : List Char, CaptureShape p.data a)
    ∧ (∀ p : String, extractApiIdFromPath p = none ↔
        ¬ ∃ a : List Char, CaptureShape p.data a) := by
  have hmain : ∀ (p : String) (a : String),
      extractApiIdFromPath p = some a ↔
        LeftmostCaptureShape p.data a.data := by
    intro p a
    constructor
    · intro h
      rw [extractApiIdFromPath, Option.map_eq_some'] at h
      obtain ⟨w, hw, hmk⟩ := h
      have hwa : a.data = w := by rw [← hmk]
      obtain ⟨u, t, heq, hcapt, hmin⟩ :=
        scanCaptureApi_sound_leftmost p.data w hw
      refine ⟨u, t, heq, hwa ▸ (captureApiAt_eq_some_iff t w).mp hcapt,
        ?_⟩
      intro u2 t2 b heq2 hlen hshape
      have hb : captureApiAt t2 = some b :=
        (captureApiAt_eq_some_iff t2 b).mpr hshape
      rw [hmin u2 t2 heq2 hlen] at hb
      exact Option.noConfusion hb
    · rintro ⟨u, t, heq, hat, hmin⟩
      have hcap : captureApiAt t = some a.data :=
        (captureApiAt_eq_some_iff t a.data).mpr hat
      have hscan : scanCaptureApi (u ++ t) = some a.data := by
        refine scanCaptureApi_leftmost_complete t a.data hcap u ?_
        intro u2 t2 b heq2 hlen
        exact hmin u2 t2 b (by rw [heq, heq2]) hlen
      rw [extractApiIdFromPath]
      have hpd : scanCaptureApi p.data = some a.data := by
        rw [heq]
        exact hscan
      rw [hpd, Option.map_some']
  have hiff : ∀ p : String, (extractApiIdFromPath p).isSome = true ↔
      ∃ a : List Char, CaptureShape p.data a := by
    intro p
    constructor
    · intro h
      cases hs : extractApiIdFromPath p with
      | none => rw [hs] at h; simp at h
      | some a =>
        obtain ⟨u, t, heq, ht, hrest⟩ := (hmain p a).mp hs
        exact ⟨a.data, u, t, heq, ht⟩
    · rintro ⟨a, u, t, heq, hat⟩
      have hcap : captureApiAt t = some a :=
        (captureApiAt_eq_some_iff t a).mpr hat
      obtain ⟨b, hb⟩ := scanCaptureApi_isSome u t a hcap
      rw [extractApiIdFromPath]
      have hpd : scanCaptureApi p.data = some b := by
        rw [heq]
        exact hb
      rw [hpd]
      rfl
  refine ⟨hmain, hiff, ?_⟩
  intro p
  constructor
  · intro h hex
    have := (hiff p).mpr hex
    rw [h] at this
    simp at this
  · intro hex
    cases hs : extractApiIdFromPath p with
    | none => rfl
    | some a =>
      exact absurd ((hiff p).mp (by rw [hs]; rfl)) hex

/--
C7 counterexample: `xpolicies/foo/api.xml` has no path segment equal to
`policies`, yet `extractApiIdFromPath` returns `foo` — the match is on
the literal substring `policies`, not on a whole segment.
-/
theorem c7_counterexample :
    ((splitSegs "xpolicies/foo/api.xml".data).contains "policies".data
      = false) ∧
    extractApiIdFromPath "xpolicies/foo/api.xml" = some "foo" :=
  ⟨by decide, by decide⟩

theorem c7_extract_api_id_witness :
    LeftmostCaptureShape ("policies/my-api/api.xml".data)
      ("my-api".data) ∧
    LeftmostCaptureShape ("policies/a/policies/b/x.xml".data) ("a".data)
    :=
  ⟨(c7_extract_api_id.1 "policies/my-api/api.xml" "my-api").mp
      (by decide),
   (c7_extract_api_id.1 "policies/a/policies/b/x.xml" "a").mp
      (by decide)⟩

theorem c4_validate_policies_witness :
    validatePolicies (c4ApiDoc :: c4OpDocs 0) = true ∧
      validatePolicies [] = false :=
  ⟨c4_validate_policies.2.2.2 0, c4_validate_policies.2.1⟩

theorem c8_content_validator_witness :
    validateXmlContent "<policies><inbound/></policies>" = true :=
  c8_content_validator.2.2.2.2.2

end Apim
